import Mathlib

/-!
# Craft Tree Optimizer — verification of the recipe-to-LP compiler and app state machine

Shallow embedding of the `craft_tree_optimizer` Rust application:

* `src/recipes.rs` / `src/recipe_lookup.rs` — the `Recipe` data type (no validation
  in `Recipe::new`).
* `src/ui/recipe/builder/helpers.rs` — the validated `Quantity` (positive integer)
  and `Probability` (integer percentage in 1..=100) newtypes.  Both have private
  fields and validating constructors, so we embed them as subtypes.
* `src/ui/recipe/builder.rs` — `BuilderState` with `from_recipe`, `build`, `perform`.
* `src/ui/recipe.rs` — the two-state `EditableContent` (`Builder` / `Built`) and
  `EditableContent::perform`.
* `src/main.rs` — the `App` state, the ledger bookkeeping (`remove_recipe_items!`,
  the `Message::Build` increment loop) and the `Message::Compute` handler: model
  building (per-item produced/consumed linear expressions), constraint compilation
  (target / raw-cost / free policy), solver-adapter result handling and solution
  projection.

Machine floats (`f64`/`f32`) are embedded as `ℚ`; `u8`/`usize` as `ℕ`.  The
external LP solver (good_lp / clarabel) is embedded as an oracle parameter: a
function from the assembled constraints and objective to an outcome, so theorems
quantifying over the oracle capture exactly what the code does with any solver
answer.  The `parsed_input::Content` wrapper from the external `more_iced_aw`
crate (a last-valid-value holder with UI parse state) is embedded as the held
value; `iced` widgets, window management, file dialogs and (de)serialization are
out of scope per the spec and are not part of the state machine.
-/

namespace CraftTree

/-- Items are identified by their case-sensitive name string (`ui.rs`, `Item`). -/
abbrev Item := String

/-- `Quantity` (`ui/recipe/builder/helpers.rs`): a positive integer held behind a
private field; every constructor (`new`, `Default`, `FromStr`) enforces `n ≠ 0`,
so we embed it as the subtype of positive naturals. -/
abbrev Quantity := { n : ℕ // 1 ≤ n }

/-- `Quantity::new`: `if n == 0 { None } else { Some(Quantity { n }) }`. -/
def Quantity.new (n : ℕ) : Option Quantity :=
  if h : n = 0 then none else some ⟨n, by omega⟩

/-- `impl Default for Quantity`: the quantity 1. -/
instance : Inhabited Quantity := ⟨⟨1, by omega⟩⟩

/-- `Probability` (`ui/recipe/builder/helpers.rs`): an integer percentage, valid
iff strictly positive and at most 100. -/
abbrev Probability := { p : ℕ // 1 ≤ p ∧ p ≤ 100 }

/-- `Probability::new`: `if p <= 0 || p > 100 { None } else { Some(Self { p }) }`. -/
def Probability.new (p : ℕ) : Option Probability :=
  if h : p = 0 ∨ 100 < p then none else some ⟨p, by omega⟩

/-- `impl Default for Probability`: 100 %. -/
instance : Inhabited Probability := ⟨⟨100, by omega⟩⟩

/-- `Recipe<T>` specialised to `T = Item` (`recipes.rs` / `recipe_lookup.rs`):
an ingredient list `(item, quantity)` and a product list
`(item, quantity, success probability)`.  Quantities are `u8` (embedded `ℕ`),
probabilities `f32` (embedded `ℚ`). -/
structure Recipe where
  ingredients : List (Item × ℕ)
  products : List (Item × ℕ × ℚ)
deriving DecidableEq

/-- `Recipe::new`: stores both lists verbatim — there is no validation. -/
def Recipe.new (ingredients : List (Item × ℕ)) (products : List (Item × ℕ × ℚ)) :
    Recipe :=
  ⟨ingredients, products⟩

/-- `BuilderState` (`ui/recipe/builder.rs`): the in-edit representation of a
recipe.  The `parsed_input::Content` wrappers are embedded as their held values;
the `empty_qty`/`empty_proba` scratch fields only feed the UI's trailing empty
row and never reach `build`, so they are omitted. -/
structure BuilderState where
  products : List (Item × Quantity × Probability)
  ingredients : List (Item × Quantity)
deriving DecidableEq

/-- `BuilderState::new` / `Default`: an empty recipe. -/
def BuilderState.new : BuilderState := ⟨[], []⟩

instance : Inhabited BuilderState := ⟨BuilderState.new⟩

/-- Rust `f64::round`: round half away from zero. -/
def rustRound (q : ℚ) : ℤ :=
  if 0 ≤ q then ⌊q + 1 / 2⌋ else ⌈q - 1 / 2⌉

/-- `BuilderState::from_recipe`: quantities re-validated through `Quantity::new`
with `unwrap_or_default()` (so 0 silently becomes 1); a probability is scaled to
a percentage, rounded, clamped into `[1, 100]` and re-validated through
`Probability::new` with `unwrap_or_default()`. -/
def BuilderState.from_recipe (r : Recipe) : BuilderState where
  products := r.products.map fun e =>
    (e.1, (Quantity.new e.2.1).getD default,
      (Probability.new (min 100 (max 1 (rustRound (e.2.2 * 100)))).toNat).getD default)
  ingredients := r.ingredients.map fun e => (e.1, (Quantity.new e.2).getD default)

/-- `BuilderState::build`: `Recipe::new` on the dereferenced quantities, with
each probability percentage divided by 100. -/
def BuilderState.build (b : BuilderState) : Recipe :=
  Recipe.new
    (b.ingredients.map fun e => (e.1, e.2.1))
    (b.products.map fun e => (e.1, e.2.1.1, (e.2.2.1 : ℚ) / 100))

/-- `BuilderAction` (`ui/recipe/builder.rs`).  The `Parsed` payloads of the two
quantity/probability edit actions are embedded as successfully parsed values
(a failed parse only flips the widget's validity flag and keeps the held value). -/
inductive BuilderAction where
  | AddProduct (item : Item) (qty : Quantity) (prob : Probability)
  | AddIngredient (item : Item) (qty : Quantity)
  | EditProdItem (index : ℕ) (item : Item)
  | EditProdQty (index : ℕ) (qty : Quantity)
  | EditProdProba (index : ℕ) (prob : Probability)
  | EditIngrItem (index : ℕ) (item : Item)
  | EditIngrQty (index : ℕ) (qty : Quantity)
  | DelProd (index : ℕ)
  | DelIngr (index : ℕ)
deriving DecidableEq

/-- `Vec::get_mut(i).map(f)`: modify the element at `i` if it exists. -/
def listModify (l : List α) (i : ℕ) (f : α → α) : List α :=
  match l, i with
  | [], _ => []
  | x :: xs, 0 => f x :: xs
  | x :: xs, i + 1 => x :: listModify xs i f

/-- `BuilderState::perform` (`ui/recipe/builder.rs`): out-of-range indices do
nothing; deletions are guarded by `index < len` (as `List.eraseIdx` is). -/
def BuilderState.perform (b : BuilderState) (a : BuilderAction) : BuilderState :=
  match a with
  | .AddProduct item qty prob => { b with products := b.products ++ [(item, qty, prob)] }
  | .AddIngredient item qty => { b with ingredients := b.ingredients ++ [(item, qty)] }
  | .EditProdItem i item =>
    { b with products := listModify b.products i fun e => (item, e.2) }
  | .EditProdQty i qty =>
    { b with products := listModify b.products i fun e => (e.1, qty, e.2.2) }
  | .EditProdProba i prob =>
    { b with products := listModify b.products i fun e => (e.1, e.2.1, prob) }
  | .EditIngrItem i item =>
    { b with ingredients := listModify b.ingredients i fun e => (item, e.2) }
  | .EditIngrQty i qty =>
    { b with ingredients := listModify b.ingredients i fun e => (e.1, qty) }
  | .DelProd i => { b with products := b.products.eraseIdx i }
  | .DelIngr i => { b with ingredients := b.ingredients.eraseIdx i }

/-- `EditableContent` (`ui/recipe.rs`): a recipe is either in edit (`Builder`)
or finalized (`Built`). -/
inductive EditableContent where
  | Builder (state : BuilderState)
  | Built (recipe : Recipe)
deriving DecidableEq

/-- `EditableAction` (`ui/recipe.rs`). -/
inductive EditableAction where
  | Build
  | Edit
  | BuilderAction (action : BuilderAction)
deriving DecidableEq

/-- `EditableContent::perform` (`ui/recipe.rs`): `Build` finalizes a builder and
leaves a built recipe alone; `Edit` reopens a built recipe via
`BuilderState::from_recipe`; a `BuilderAction` only touches the builder case. -/
def EditableContent.perform (c : EditableContent) (a : EditableAction) : EditableContent :=
  match a, c with
  | .Build, .Builder b => .Built b.build
  | .Build, .Built r => .Built r
  | .Edit, .Builder b => .Builder b
  | .Edit, .Built r => .Builder (BuilderState.from_recipe r)
  | .BuilderAction ba, .Builder b => .Builder (b.perform ba)
  | .BuilderAction _, .Built r => .Built r

/-- One `known_items` ledger entry (`main.rs`, `App::known_items` value type):
the reference counter (`usize`), the optional target amount and the optional
raw cost (each a `parsed_input::Content<TargetAmount, _>`, embedded as the held
value). -/
abbrev LedgerEntry := ℕ × Option ℚ × Option ℚ

/-- The `BTreeMap<Item, _>` item ledger, embedded as its entry sequence.  The
real map iterates in sorted key order; no verified property depends on the
iteration order, so the list order is left unconstrained. -/
abbrev Ledger := List (Item × LedgerEntry)

/-- `BTreeMap::get`: the entry of the first (unique) matching key. -/
def ledgerGet (l : Ledger) (k : Item) : Option LedgerEntry :=
  (l.find? fun e => e.1 == k).map fun e => e.2

/-- `BTreeMap::get_mut(k).map(f)`: update the matching entry in place. -/
def ledgerModify (l : Ledger) (k : Item) (f : LedgerEntry → LedgerEntry) : Ledger :=
  l.map fun e => if e.1 == k then (e.1, f e.2) else e

/-- `BTreeMap::remove`. -/
def ledgerRemove (l : Ledger) (k : Item) : Ledger :=
  l.filter fun e => ¬ e.1 == k

/-- `BTreeMap::insert` of a key not yet present (the only way the app inserts). -/
def ledgerInsert (l : Ledger) (k : Item) (v : LedgerEntry) : Ledger :=
  l ++ [(k, v)]

/-- A good_lp linear `Expression` over the recipe usage variables, embedded as
the list of accumulated `coefficient * variable` terms (`Default` = the empty
expression). -/
abbrev LinExpr := List (ℚ × ℕ)

/-- `Expression::add_mul(coeff, variable)`: accumulate one term. -/
def LinExpr.add_mul (e : LinExpr) (c : ℚ) (v : ℕ) : LinExpr :=
  (c, v) :: e

/-- `Expression::add_mul(coeff, expression)`: accumulate a scaled expression
(used for the raw-cost contribution to the objective). -/
def LinExpr.add_mul_expr (acc : LinExpr) (c : ℚ) (e : LinExpr) : LinExpr :=
  e.map (fun t => (c * t.1, t.2)) ++ acc

/-- Subtraction of expressions (`prod_expr.clone() - uses_expr.clone()`). -/
def LinExpr.sub (e₁ e₂ : LinExpr) : LinExpr :=
  e₁ ++ e₂.map fun t => (-t.1, t.2)

/-- The coefficient of variable `v` in an expression. -/
def LinExpr.coeff (e : LinExpr) (v : ℕ) : ℚ :=
  ((e.filter fun t => t.2 == v).map fun t => t.1).sum

/-- `Solution::eval`: the value of an expression at a variable assignment. -/
def LinExpr.eval (e : LinExpr) (a : ℕ → ℚ) : ℚ :=
  (e.map fun t => t.1 * a t.2).sum

/-- The `item_expressions` map (`main.rs`): per item, the pair
`(prod_expr, uses_expr)`.  The `HashMap` is embedded as its entry sequence. -/
abbrev ExprMap := List (Item × (LinExpr × LinExpr))

/-- `HashMap::get` on `item_expressions`. -/
def exprMapGet (em : ExprMap) (k : Item) : Option (LinExpr × LinExpr) :=
  (em.find? fun e => e.1 == k).map fun e => e.2

/-- `HashMap::get_mut(k).map(f)` on `item_expressions`. -/
def exprMapModify (em : ExprMap) (k : Item) (f : LinExpr × LinExpr → LinExpr × LinExpr) :
    ExprMap :=
  em.map fun e => if e.1 == k then (e.1, f e.2) else e

/-- `main.rs` line 216: `item_expressions` starts as one `Default::default()`
(empty, empty) pair per `known_items` key. -/
def initExpressions (ledger : Ledger) : ExprMap :=
  ledger.map fun e => (e.1, ([], []))

/-- The per-recipe iterator of `main.rs` lines 231-238: ingredients as
`(item, qty as f64, false)` chained with products as
`(item, qty as f64 * prob, true)`. -/
def recipeEntries (r : Recipe) : List (Item × ℚ × Bool) :=
  (r.ingredients.map fun e => (e.1, (e.2 : ℚ), false))
    ++ r.products.map fun e => (e.1, (e.2.1 : ℚ) * e.2.2, true)

/-- The `Message::Compute` error message for an unbuilt recipe (typo as in the
source). -/
def notReadyMsg : String := "One of the recipies is not build."

/-- The internal-consistency error message of the expression-update loop. -/
def missingExprMsg (it : Item) : String :=
  "Internal error: no expression found for item " ++ it
    ++ " during expression update with recipe"

/-- The internal-consistency error message of the constraint-build loop. -/
def missingConstraintMsg (it : Item) : String :=
  "Internal error: no expression found for item " ++ it ++ " during constraint build"

/-- One step of the expression-update loop (`main.rs` lines 240-254): look the
item up; a product entry feeds `prod_expr`, an ingredient entry `uses_expr`;
a missing item is the internal-consistency error. -/
def applyEntry (em : ExprMap) (i : ℕ) (ent : Item × ℚ × Bool) :
    Except String ExprMap :=
  match exprMapGet em ent.1 with
  | some _ =>
    .ok (exprMapModify em ent.1 fun pu =>
      if ent.2.2 then (LinExpr.add_mul pu.1 ent.2.1 i, pu.2)
      else (pu.1, LinExpr.add_mul pu.2 ent.2.1 i))
  | none => .error (missingExprMsg ent.1)

/-- Fold `applyEntry` over one recipe's entries (variable index `i`). -/
def processEntries (i : ℕ) (ents : List (Item × ℚ × Bool)) (em : ExprMap) :
    Except String ExprMap :=
  match ents with
  | [] => .ok em
  | ent :: rest =>
    match applyEntry em i ent with
    | .ok em' => processEntries i rest em'
    | .error e => .error e

/-- The recipe loop of `main.rs` lines 223-258, from variable index `i`:
an unbuilt recipe aborts with `notReadyMsg`; a built recipe updates the
expressions of every item it references. -/
def buildExprsGo (i : ℕ) (rs : List EditableContent) (em : ExprMap) :
    Except String ExprMap :=
  match rs with
  | [] => .ok em
  | .Builder _ :: _ => .error notReadyMsg
  | .Built r :: rest =>
    match processEntries i (recipeEntries r) em with
    | .ok em' => buildExprsGo (i + 1) rest em'
    | .error e => .error e

/-- The Model Builder: initialize every ledger item's expressions to the empty
pair, then walk the recipe collection once. -/
def buildExpressions (recipes : List EditableContent) (ledger : Ledger) :
    Except String ExprMap :=
  buildExprsGo 0 recipes (initExpressions ledger)

/-- A named `expr ≥ bound` constraint (`(expression >> bound).set_name(name)`). -/
structure Constraint where
  name : String
  expr : LinExpr
  bound : ℚ
deriving DecidableEq

/-- The per-item body of the constraint loop (`main.rs` lines 273-281) applied
to the accumulated `(constraints, total_cost)`: a set target emits the
`net ≥ target` constraint named after the item; otherwise a set raw cost adds
`-raw_cost * net` to the objective; otherwise the `net ≥ 0` constraint. -/
def compileItem (item : Item) (e : LedgerEntry) (net : LinExpr)
    (acc : List Constraint × LinExpr) : List Constraint × LinExpr :=
  match e.2.1 with
  | some target => (acc.1 ++ [⟨item, net, target⟩], acc.2)
  | none =>
    match e.2.2 with
    | some cost => (acc.1, LinExpr.add_mul_expr acc.2 (-cost) net)
    | none => (acc.1 ++ [⟨item, net, 0⟩], acc.2)

/-- The constraint loop of `main.rs` lines 260-282: walk `known_items`, look up
each item's expressions (a miss is the internal-consistency error), form
`net = prod_expr - uses_expr` and apply the per-item policy. -/
def compileGo (em : ExprMap) (items : Ledger) (acc : List Constraint × LinExpr) :
    Except String (List Constraint × LinExpr) :=
  match items with
  | [] => .ok acc
  | (item, e) :: rest =>
    match exprMapGet em item with
    | none => .error (missingConstraintMsg item)
    | some pu => compileGo em rest (compileItem item e (LinExpr.sub pu.1 pu.2) acc)

/-- good_lp `SolutionStatus` as matched by the code (`Optimal` accepted, any
other terminal status rejected). -/
inductive SolStatus where
  | Optimal
  | Suboptimal
  | Infeasible
  | Unbounded
deriving DecidableEq

/-- The `{status:?}` debug rendering used in the error message. -/
def statusStr : SolStatus → String
  | .Optimal => "Optimal"
  | .Suboptimal => "Suboptimal"
  | .Infeasible => "Infeasible"
  | .Unbounded => "Unbounded"

/-- A solver answer: the per-variable values and the terminal status. -/
structure LpSolution where
  assignment : ℕ → ℚ
  status : SolStatus

/-- The external LP solver, as an oracle from the assembled constraints and
objective to an outcome (`Err` is a `SolverFailure`). -/
abbrev Solver := List Constraint → LinExpr → Except String LpSolution

/-- The Solution Projector for `item_stats` (`main.rs` lines 299-305): evaluate
every item's built expressions at the solution. -/
def projectStats (em : ExprMap) (a : ℕ → ℚ) : List (Item × ℚ × ℚ) :=
  em.map fun e => (e.1, LinExpr.eval e.2.1 a, LinExpr.eval e.2.2 a)

/-- The item occurrences of a recipe, in the order the code visits them:
`inputs.chain(outputs)` (`main.rs` lines 106-109 and 144-147). -/
def recipeOccs (r : Recipe) : List Item :=
  r.ingredients.map (fun e => e.1) ++ r.products.map fun e => e.1

/-- One increment of the `Message::Build` ledger loop (`main.rs` lines 147-153):
bump the counter of a known item, insert an unknown item with counter 0 and no
annotations. -/
def addItemOcc (l : Ledger) (it : Item) : Ledger :=
  match ledgerGet l it with
  | some _ => ledgerModify l it fun e => (e.1 + 1, e.2)
  | none => ledgerInsert l it (0, none, none)

/-- The full `Message::Build` ledger update for a freshly built recipe. -/
def addRecipeItems (l : Ledger) (r : Recipe) : Ledger :=
  (recipeOccs r).foldl addItemOcc l

/-- One decrement of the `remove_recipe_items!` loop (`main.rs` lines 109-120):
an entry whose stored counter is zero is removed outright — its annotations are
not consulted — otherwise the counter is decremented. -/
def removeItemOcc (l : Ledger) (it : Item) : Ledger :=
  match ledgerGet l it with
  | some e => if e.1 = 0 then ledgerRemove l it else ledgerModify l it fun e => (e.1 - 1, e.2)
  | none => l

/-- `remove_recipe_items!` (`main.rs` lines 101-124): a builder is left alone;
a built recipe decrements once per ingredient/product occurrence. -/
def removeRecipeItems (l : Ledger) (c : EditableContent) : Ledger :=
  match c with
  | .Builder _ => l
  | .Built r => (recipeOccs r).foldl removeItemOcc l

/-- The `App` state (`main.rs`), restricted to the fields the core operates on.
File paths, import/save errors and the save popup are file-dialog plumbing with
no bearing on the verified behaviour and are omitted. -/
structure AppState where
  recipes : List EditableContent
  known_items : Ledger
  error : Option String
  recipe_uses : Option (List ℚ)
  item_stats : Option (List (Item × ℚ × ℚ))
  scale : ℚ
  unsaved_changes : Bool
deriving DecidableEq

/-- `App::default()`: everything empty, `scale` the default `TargetAmount` 1. -/
def initialApp : AppState :=
  ⟨[], [], none, none, none, 1, false⟩

/-- The `Message`s that drive the core state machine (`main.rs`).  Focus,
open/save and window messages never touch the verified state and are omitted.
`EditTargetAmount`/`EditRawCost` carry the successfully parsed value (a parse
failure only flips the widget's validity flag). -/
inductive Msg where
  | Action (index : ℕ) (action : EditableAction)
  | Build (index : ℕ)
  | Edit (index : ℕ)
  | Delete (index : ℕ)
  | AddRecipe
  | ToggleTarget (item : Item) (toggle : Bool)
  | EditTargetAmount (item : Item) (value : ℚ)
  | ToggleRaw (item : Item) (toggle : Bool)
  | EditRawCost (item : Item) (value : ℚ)
  | Compute
  | ComputeError (msg : String)
  | EditScale (value : ℚ)
deriving DecidableEq

/-- The fall-through tail of `App::update` (`main.rs` lines 408-411), reached by
every edit message: mark unsaved, clear the error and discard the stored
solution. -/
def invalidate (s : AppState) : AppState :=
  { s with unsaved_changes := true, error := none, recipe_uses := none, item_stats := none }

/-- The `Message::Compute` handler (`main.rs` lines 210-324) against a solver
oracle.  Returns the new state and the `Task::done` message, if any.  On a
solver `Ok`, `recipe_uses` and `item_stats` are overwritten from the solution
*before* the status check; a non-`Optimal` status then returns early with the
error task, keeping those stores. -/
def computeUpdate (solver : Solver) (s : AppState) : AppState × Option Msg :=
  match buildExpressions s.recipes s.known_items with
  | .error e => (s, some (.ComputeError e))
  | .ok em =>
    match compileGo em s.known_items ([], []) with
    | .error e => (s, some (.ComputeError e))
    | .ok co =>
      match solver co.1 co.2 with
      | .error err => (s, some (.ComputeError ("Could not solve: " ++ err)))
      | .ok sol =>
        let s' := { s with
          recipe_uses := some ((List.range s.recipes.length).map sol.assignment),
          item_stats := some (projectStats em sol.assignment) }
        match sol.status with
        | .Optimal => ({ s' with unsaved_changes := true }, none)
        | st => (s', some (.ComputeError ("Solution is not optimal. " ++ statusStr st)))

/-- `App::update` (`main.rs`).  Messages that `return` early in the source
(`Compute`, `ComputeError`, `EditScale`) skip `invalidate`; every edit message
falls through to it. -/
def update (solver : Solver) (s : AppState) (m : Msg) : AppState × Option Msg :=
  match m with
  | .Action i a =>
    (invalidate { s with recipes := listModify s.recipes i fun r => r.perform a }, none)
  | .Build i =>
    match s.recipes.get? i with
    | none => (invalidate s, none)
    | some c =>
      let c' := c.perform .Build
      (invalidate { s with
        recipes := s.recipes.set i c',
        known_items :=
          match c' with
          | .Builder _ => s.known_items
          | .Built r => addRecipeItems s.known_items r }, none)
  | .Edit i =>
    match s.recipes.get? i with
    | none => (invalidate s, none)
    | some c =>
      (invalidate { s with
        known_items := removeRecipeItems s.known_items c,
        recipes := s.recipes.set i (c.perform .Edit) }, none)
  | .Delete i =>
    match s.recipes.get? i with
    | none => (invalidate { s with recipes := s.recipes.eraseIdx i }, none)
    | some c =>
      (invalidate { s with
        known_items := removeRecipeItems s.known_items c,
        recipes := s.recipes.eraseIdx i }, none)
  | .AddRecipe =>
    (invalidate { s with recipes := s.recipes ++ [.Builder BuilderState.new] }, none)
  | .ToggleTarget item toggle =>
    (invalidate { s with known_items :=
      (ledgerModify s.known_items item fun e =>
        (e.1, if toggle then some (e.2.1.getD 1) else none, e.2.2)) }, none)
  | .EditTargetAmount item v =>
    (invalidate { s with known_items :=
      (ledgerModify s.known_items item fun e =>
        (e.1, e.2.1.map fun _ => v, e.2.2)) }, none)
  | .ToggleRaw item toggle =>
    (invalidate { s with known_items :=
      (ledgerModify s.known_items item fun e =>
        (e.1, e.2.1, if toggle then some (e.2.2.getD 1) else none)) }, none)
  | .EditRawCost item v =>
    (invalidate { s with known_items :=
      (ledgerModify s.known_items item fun e =>
        (e.1, e.2.1, e.2.2.map fun _ => v)) }, none)
  | .Compute => computeUpdate solver s
  | .ComputeError msg => ({ s with error := some msg }, none)
  | .EditScale v => ({ s with scale := v, unsaved_changes := true }, none)

/-- The messages the UI can actually emit in a given state (`App::view`): an
`Action` only ever carries a `BuilderAction` (the widget wraps its actions in
`EditableAction::BuilderAction`), and the build button is only attached to a
recipe still in the builder state. -/
def uiOk (s : AppState) (m : Msg) : Prop :=
  match m with
  | .Action _ a => ∃ ba, a = .BuilderAction ba
  | .Build i => ∃ b, s.recipes.get? i = some (.Builder b)
  | _ => True

/-- The application states reachable from `App::default()` through UI-emitted
messages (file loading, which replaces the whole state with external data, is
out of scope). -/
inductive Reachable : AppState → Prop where
  | init : Reachable initialApp
  | step (s : AppState) (m : Msg) (solver : Solver) (hs : Reachable s)
      (hm : uiOk s m) : Reachable (update solver s m).1

/-- How many times the item occurs as an ingredient or product across the built
recipes of the collection (the spec's notion of reference count, §3). -/
def occCount (item : Item) (rs : List EditableContent) : ℕ :=
  (rs.map fun c =>
    match c with
    | .Builder _ => 0
    | .Built r => (recipeOccs r).count item).sum

/-- The contribution of one collection slot to an item's occurrence count. -/
def occContrib (c : EditableContent) (item : Item) : ℕ :=
  match c with
  | .Builder _ => 0
  | .Built r => (recipeOccs r).count item

/-- The relation the app maintains between a stored ledger lookup result and an
item's occurrence count: a present entry stores one less than the occurrence
count, an absent entry means zero occurrences. -/
def countRel (o : Option LedgerEntry) (n : ℕ) : Prop :=
  match o with
  | some e => e.1 + 1 = n
  | none => n = 0

/-- The messages whose handlers change a recipe, the recipe set, or an item
annotation; all of them fall through to the invalidation tail of `App::update`. -/
def editMsg : Msg → Bool
  | .Action _ _ | .Build _ | .Edit _ | .Delete _ | .AddRecipe
  | .ToggleTarget _ _ | .EditTargetAmount _ _ | .ToggleRaw _ _ | .EditRawCost _ _ => true
  | .Compute | .ComputeError _ | .EditScale _ => false

/-- The per-item consumed coefficient contributed by one collection slot: the
summed quantities of the matching ingredient entries of a built recipe. -/
def recipeConsCoeff (c : EditableContent) (item : Item) : ℚ :=
  match c with
  | .Builder _ => 0
  | .Built r => ((r.ingredients.filter fun e => e.1 == item).map fun e => (e.2 : ℚ)).sum

/-- The per-item produced coefficient contributed by one collection slot: the
summed `quantity * probability` of the matching product entries. -/
def recipeProdCoeff (c : EditableContent) (item : Item) : ℚ :=
  match c with
  | .Builder _ => 0
  | .Built r => ((r.products.filter fun e => e.1 == item).map fun e => (e.2.1 : ℚ) * e.2.2).sum

/-- The consumed coefficient the model should assign to variable `i`. -/
def collectionConsCoeff (rs : List EditableContent) (i : ℕ) (item : Item) : ℚ :=
  match rs.get? i with
  | some c => recipeConsCoeff c item
  | none => 0

/-- The produced coefficient the model should assign to variable `i`. -/
def collectionProdCoeff (rs : List EditableContent) (i : ℕ) (item : Item) : ℚ :=
  match rs.get? i with
  | some c => recipeProdCoeff c item
  | none => 0

/-- The summed produced weights of one recipe's entry list for an item. -/
def entsProdSum (ents : List (Item × ℚ × Bool)) (item : Item) : ℚ :=
  ((ents.filter fun e => e.1 == item && e.2.2).map fun e => e.2.1).sum

/-- The summed consumed weights of one recipe's entry list for an item. -/
def entsConsSum (ents : List (Item × ℚ × Bool)) (item : Item) : ℚ :=
  ((ents.filter fun e => e.1 == item && !e.2.2).map fun e => e.2.1).sum

/-- A solver oracle that always fails; used to drive edit-only message chains
(their handlers never consult the solver). -/
def dummySolver : Solver := fun _ _ => .error ""

/-- Demo trace: an empty collection gets one new builder row. -/
def rsA : AppState := (update dummySolver initialApp .AddRecipe).1

/-- Demo trace: the builder row receives one product line (1 wood at 100 %). -/
def rsB : AppState :=
  (update dummySolver rsA
    (.Action 0 (.BuilderAction (.AddProduct "wood" ⟨1, by omega⟩ ⟨100, by omega⟩)))).1

/-- Demo trace: the recipe is built; the ledger now tracks the item. -/
def rsC : AppState := (update dummySolver rsB (.Build 0)).1

/-- Demo trace: the user sets a target on the item. -/
def rsD : AppState := (update dummySolver rsC (.ToggleTarget "wood" true)).1

/-- Demo trace: the only recipe referencing the annotated item is deleted. -/
def rsE : AppState := (update dummySolver rsD (.Delete 0)).1

/-- A compute-ready state: one built recipe producing 10 wood at probability 1,
the item annotated with target 50 and no stored solution. -/
def computeDemo : AppState :=
  ⟨[.Built ⟨[], [("wood", 10, 1)]⟩], [("wood", (0, some 50, none))], none, none, none, 1, false⟩

/-- A solver oracle whose answer is the assignment `5` for every variable with a
`Suboptimal` terminal status. -/
def suboptimalSolver : Solver := fun _ _ => .ok ⟨fun _ => 5, .Suboptimal⟩

/-- The expression map the model builder produces for `computeDemo` (the one
product entry contributes coefficient `10 * 1` to the produced expression of
variable 0). -/
def demoEM : ExprMap := [("wood", ([(((10 : ℕ) : ℚ) * 1, 0)], []))]

/-- A ledger whose single item carries both a target and a raw cost. -/
def bothLedger : Ledger := [("ore", (0, some 5, some 3))]

/-- A collection with one built recipe consuming 2 ore. -/
def bothRecipes : List EditableContent := [.Built ⟨[("ore", 2)], []⟩]

/-! ## Semantics of linear expressions -/

theorem LinExpr.eval_append (e₁ e₂ : LinExpr) (a : ℕ → ℚ) :
    LinExpr.eval (e₁ ++ e₂) a = LinExpr.eval e₁ a + LinExpr.eval e₂ a := by
  simp [LinExpr.eval]

theorem LinExpr.eval_scale (c : ℚ) (e : LinExpr) (a : ℕ → ℚ) :
    LinExpr.eval (e.map fun t => (c * t.1, t.2)) a = c * LinExpr.eval e a := by
  induction e with
  | nil => simp [LinExpr.eval]
  | cons t rest ih => simp [LinExpr.eval, mul_add, mul_assoc] at ih ⊢; simp [ih]

theorem LinExpr.eval_sub (e₁ e₂ : LinExpr) (a : ℕ → ℚ) :
    LinExpr.eval (LinExpr.sub e₁ e₂) a = LinExpr.eval e₁ a - LinExpr.eval e₂ a := by
  have h : LinExpr.eval (e₂.map fun t => (-t.1, t.2)) a = -LinExpr.eval e₂ a := by
    induction e₂ with
    | nil => simp [LinExpr.eval]
    | cons t rest ih => simp [LinExpr.eval] at ih ⊢; simp [ih]; ring
  rw [LinExpr.sub, LinExpr.eval_append, h]; ring

theorem LinExpr.eval_add_mul_expr (acc : LinExpr) (c : ℚ) (e : LinExpr) (a : ℕ → ℚ) :
    LinExpr.eval (LinExpr.add_mul_expr acc c e) a
      = c * LinExpr.eval e a + LinExpr.eval acc a := by
  rw [LinExpr.add_mul_expr, LinExpr.eval_append, LinExpr.eval_scale]

/-! ## C4 and C1: the constraint-compiler policy -/

/-- C4: the constraint compiler, per ledger item with net expression
`net = produced - consumed`, applies the target-first policy: a set target `t`
emits the constraint `net ≥ t` named after the item; otherwise a set raw cost
`c` adds `-c · net` to the minimized objective, whose value at any assignment is
`c · (consumed - produced)` (buying net-consumed quantity costs positive,
over-producing is creditable); otherwise it emits `net ≥ 0` named after the
item.  The last conjunct ties the per-item step to the loop over the ledger. -/
theorem constraint_compiler_policy (item : Item) (q : ℕ) (t c : ℚ) (rw : Option ℚ)
    (net : LinExpr) (acc : List Constraint × LinExpr) (em : ExprMap) :
    compileItem item (q, some t, rw) net acc = (acc.1 ++ [⟨item, net, t⟩], acc.2) ∧
    compileItem item (q, none, some c) net acc
      = (acc.1, LinExpr.add_mul_expr acc.2 (-c) net) ∧
    compileItem item (q, none, none) net acc = (acc.1 ++ [⟨item, net, 0⟩], acc.2) ∧
    (∀ p u a, LinExpr.eval (LinExpr.add_mul_expr acc.2 (-c) (LinExpr.sub p u)) a
        = LinExpr.eval acc.2 a + c * (LinExpr.eval u a - LinExpr.eval p a)) ∧
    (∀ e rest pu, exprMapGet em item = some pu →
      compileGo em ((item, e) :: rest) acc
        = compileGo em rest (compileItem item e (LinExpr.sub pu.1 pu.2) acc)) := by
  refine ⟨rfl, rfl, rfl, ?_, ?_⟩
  · intro p u a
    rw [LinExpr.eval_add_mul_expr, LinExpr.eval_sub]; ring
  · intro e rest pu h
    simp [compileGo, h]

/-- Witness for C4 at a concrete ledger item with a raw cost. -/
theorem constraint_compiler_policy_witness :
    compileGo [("ore", ([], [(2, 0)]))] [("ore", (0, none, some 3))] ([], [])
      = compileGo [("ore", ([], [(2, 0)]))] []
          (compileItem "ore" (0, none, some 3)
            (LinExpr.sub ([] : LinExpr) [(2, 0)]) ([], [])) := by
  exact (constraint_compiler_policy "ore" 0 5 3 none [] ([], [])
    [("ore", ([], [(2, 0)]))]).2.2.2.2 (0, none, some 3) [] ([], [(2, 0)]) (by rfl)

/-- C1 fails on the code: for an item with both a target and a raw cost set,
compilation emits the target constraint but adds nothing to the objective — the
compiled objective for a one-item ledger with both annotations is the empty
expression, evaluating to 0 at every assignment, while the claimed cost term
`c · (consumed - produced)` is nonzero at the all-ones assignment. -/
theorem target_and_raw_cost_counterexample :
    buildExpressions bothRecipes bothLedger = .ok [("ore", ([], [(2, 0)]))] ∧
    compileGo [("ore", ([], [(2, 0)]))] bothLedger ([], [])
      = .ok ([⟨"ore", LinExpr.sub [] [(2, 0)], 5⟩], []) ∧
    (∀ a : ℕ → ℚ, LinExpr.eval [] a = 0) ∧
    (3 : ℚ) * (LinExpr.eval [(2, 0)] (fun _ => 1) - LinExpr.eval [] (fun _ => 1)) = 6 := by
  refine ⟨by rfl, by rfl, ?_, by norm_num [LinExpr.eval]⟩
  intro a; rfl

/-- C1 amended: when an item has both a target and a raw cost set, the target
constraint is emitted and the raw cost is ignored for that item — the `else`
branch holding the cost accumulation is never reached, so the item contributes
nothing to the objective. -/
theorem target_suppresses_raw_cost (item : Item) (q : ℕ) (t c : ℚ)
    (net : LinExpr) (acc : List Constraint × LinExpr) :
    compileItem item (q, some t, some c) net acc = (acc.1 ++ [⟨item, net, t⟩], acc.2) :=
  rfl

/-! ## C8: every edit message discards the stored solution -/

/-- C8: after any update step that changes a recipe (`Action`, `Build`, `Edit`),
adds or deletes a recipe (`AddRecipe`, `Delete`), or sets/clears/edits an item's
target or raw-cost annotation, the stored solution — `recipe_uses` and
`item_stats` — is reset to `None` by the fall-through invalidation tail;
solutions are never incrementally patched. -/
theorem edits_discard_solution (solver : Solver) (s : AppState) (m : Msg)
    (h : editMsg m = true) :
    (update solver s m).1.recipe_uses = none ∧ (update solver s m).1.item_stats = none := by
  cases m with
  | Action i a => exact ⟨rfl, rfl⟩
  | Build i => cases hc : s.recipes[i]? <;> simp [update, invalidate, hc]
  | Edit i => cases hc : s.recipes[i]? <;> simp [update, invalidate, hc]
  | Delete i => cases hc : s.recipes[i]? <;> simp [update, invalidate, hc]
  | AddRecipe => exact ⟨rfl, rfl⟩
  | ToggleTarget item b => exact ⟨rfl, rfl⟩
  | EditTargetAmount item v => exact ⟨rfl, rfl⟩
  | ToggleRaw item b => exact ⟨rfl, rfl⟩
  | EditRawCost item v => exact ⟨rfl, rfl⟩
  | Compute => simp [editMsg] at h
  | ComputeError msg => simp [editMsg] at h
  | EditScale v => simp [editMsg] at h

/-- Witness for C8 on a concrete edit step. -/
theorem edits_discard_solution_witness :
    editMsg .AddRecipe = true ∧
    (update dummySolver initialApp .AddRecipe).1.recipe_uses = none ∧
    (update dummySolver initialApp .AddRecipe).1.item_stats = none :=
  ⟨rfl, edits_discard_solution dummySolver initialApp .AddRecipe rfl⟩

/-! ## C9: quantity validation -/

/-- C9 fails on the code: `Recipe::new` performs no validation, so a recipe
value with a zero-quantity ingredient entry is representable. -/
theorem recipe_new_zero_quantity_counterexample :
    Recipe.new [("x", 0)] [] = ⟨[("x", 0)], []⟩ ∧
    ¬ (∀ e ∈ (Recipe.new [("x", 0)] []).ingredients, 1 ≤ e.2) := by
  refine ⟨rfl, fun h => ?_⟩
  exact absurd (h ("x", 0) (by simp [Recipe.new])) (by omega)

/-- C9 amended: the zero-quantity rejection lives in the builder layer, not in
`Recipe::new`: `Quantity::new` rejects 0 and accepts any positive quantity
unchanged, so every recipe produced by `BuilderState::build` has quantity ≥ 1 in
all ingredient and product entries — but `Recipe::new` itself accepts anything. -/
theorem builder_quantities_positive (b : BuilderState) (n : ℕ) (h : n ≠ 0) :
    (∀ e ∈ b.build.ingredients, 1 ≤ e.2) ∧
    (∀ e ∈ b.build.products, 1 ≤ e.2.1) ∧
    Quantity.new 0 = none ∧
    (∃ q : Quantity, Quantity.new n = some q ∧ q.1 = n) := by
  refine ⟨?_, ?_, rfl, ?_⟩
  · intro e he
    have he2 : e ∈ b.ingredients.map fun x => (x.1, x.2.1) := he
    obtain ⟨x, _, hx⟩ := List.mem_map.1 he2
    rw [← hx]
    exact x.2.2
  · intro e he
    have he2 : e ∈ b.products.map fun x => (x.1, x.2.1.1, (x.2.2.1 : ℚ) / 100) := he
    obtain ⟨x, _, hx⟩ := List.mem_map.1 he2
    rw [← hx]
    exact x.2.1.2
  · exact ⟨⟨n, by omega⟩, by simp [Quantity.new, h], rfl⟩

/-- Witness for C9's amended statement at `n = 3` on the empty builder. -/
theorem builder_quantities_positive_witness :
    (∀ e ∈ BuilderState.new.build.ingredients, 1 ≤ e.2) ∧
    (∀ e ∈ BuilderState.new.build.products, 1 ≤ e.2.1) ∧
    Quantity.new 0 = none ∧
    (∃ q : Quantity, Quantity.new 3 = some q ∧ q.1 = 3) :=
  builder_quantities_positive BuilderState.new 3 (by omega)

/-! ## C10: the builder round trip -/

theorem rustRound_natCast (k : ℕ) : rustRound (k : ℚ) = (k : ℤ) := by
  rw [rustRound, if_pos (by positivity)]
  have h : ((k : ℚ) + 1 / 2) = ((1 : ℚ) / 2 + ((k : ℤ) : ℚ)) := by push_cast; ring
  rw [h, Int.floor_add_int]
  norm_num

/-- C10: the round trip `BuilderState::from_recipe` then `BuilderState::build`
is the identity on recipes whose quantities are all ≥ 1 and whose product
probabilities are exact integer percentages in (0, 1]; on any other recipe it
silently normalizes the data — a zero quantity becomes 1 and a probability is
rounded to the nearest percent (half away from zero) and clamped into
[1 %, 100 %]. -/
theorem builder_roundtrip (r : Recipe) :
    ((∀ e ∈ r.ingredients, 1 ≤ e.2) →
     (∀ e ∈ r.products, 1 ≤ e.2.1) →
     (∀ e ∈ r.products, ∃ k : ℕ, 1 ≤ k ∧ k ≤ 100 ∧ e.2.2 = (k : ℚ) / 100) →
     (BuilderState.from_recipe r).build = r) ∧
    (BuilderState.from_recipe r).build =
      ⟨r.ingredients.map fun e => (e.1, if e.2 = 0 then 1 else e.2),
       r.products.map fun e => (e.1, if e.2.1 = 0 then 1 else e.2.1,
         ((min 100 (max 1 (rustRound (e.2.2 * 100)))).toNat : ℚ) / 100)⟩ := by
  have hqty : ∀ m : ℕ, ((Quantity.new m).getD default).1 = if m = 0 then 1 else m := by
    intro m
    by_cases h : m = 0 <;> simp [Quantity.new, h, default]
  have hprob : ∀ z : ℚ,
      ((Probability.new (min 100 (max 1 (rustRound z))).toNat).getD default).1
        = (min 100 (max 1 (rustRound z))).toNat := by
    intro z
    have h1 : (1 : ℤ) ≤ min 100 (max 1 (rustRound z)) := by omega
    have h2 : min 100 (max 1 (rustRound z)) ≤ 100 := by omega
    rw [Probability.new, dif_neg (by omega)]
    rfl
  have hnorm : (BuilderState.from_recipe r).build =
      ⟨r.ingredients.map fun e => (e.1, if e.2 = 0 then 1 else e.2),
       r.products.map fun e => (e.1, if e.2.1 = 0 then 1 else e.2.1,
         ((min 100 (max 1 (rustRound (e.2.2 * 100)))).toNat : ℚ) / 100)⟩ := by
    unfold BuilderState.from_recipe BuilderState.build Recipe.new
    cases r with
    | mk ing prods =>
      simp only [List.map_map]
      congr 1
      · apply List.map_congr_left
        intro e _
        simp [Function.comp, hqty e.2]
      · apply List.map_congr_left
        intro e _
        simp [Function.comp, hqty e.2.1, hprob (e.2.2 * 100)]
  refine ⟨fun h1 h2 h3 => ?_, hnorm⟩
  rw [hnorm]
  cases r with
  | mk ing prods =>
    simp only
    congr 1
    · conv_rhs => rw [← List.map_id ing]
      apply List.map_congr_left
      intro e he
      have := h1 e he
      rw [if_neg (by omega)]
      exact Prod.mk.eta
    · conv_rhs => rw [← List.map_id prods]
      apply List.map_congr_left
      intro e he
      obtain ⟨k, hk1, hk2, hk3⟩ := h3 e he
      have hq := h2 e he
      have hcancel : e.2.2 * 100 = (k : ℚ) := by rw [hk3]; field_simp
      have hround : rustRound (e.2.2 * 100) = (k : ℤ) := by
        rw [hcancel, rustRound_natCast]
      have hclamp : min 100 (max 1 (rustRound (e.2.2 * 100))) = (k : ℤ) := by
        rw [hround]; omega
      have htonat : (min 100 (max 1 (rustRound (e.2.2 * 100)))).toNat = k := by
        rw [hclamp]; omega
      rw [if_neg (by omega), htonat, ← hk3]
      rfl

/-- Witness for C10 on the 50 % gem recipe of the spec's Scenario C. -/
theorem builder_roundtrip_witness :
    (BuilderState.from_recipe ⟨[("ore", 2)], [("gem", 4, 1 / 2)]⟩).build
      = ⟨[("ore", 2)], [("gem", 4, 1 / 2)]⟩ := by
  refine (builder_roundtrip _).1 (by decide) (by decide) ?_
  intro e he
  simp at he
  exact ⟨50, by omega, by omega, by rw [he]; norm_num⟩

/-! ## C2: a non-optimal solve -/

/-- C2 fails on the code: on a suboptimal solve the error does carry the status,
but `recipe_uses` and `item_stats` are overwritten with the values of that very
solve *before* the status check, and the early return keeps them (the
`ComputeError` follow-up only sets the error field).  Concretely: a solver
answering `5` with status `Suboptimal` leaves `recipe_uses = [5]` and the
evaluated item statistics (50 produced, 0 consumed) in the state. -/
theorem nonoptimal_partial_results_counterexample :
    computeDemo.recipe_uses = none ∧ computeDemo.item_stats = none ∧
    (update suboptimalSolver computeDemo .Compute).1.recipe_uses = some [5] ∧
    (update suboptimalSolver computeDemo .Compute).1.item_stats
      = some (projectStats demoEM fun _ => 5) ∧
    projectStats demoEM (fun _ => 5) = [("wood", 50, 0)] ∧
    (update suboptimalSolver computeDemo .Compute).2
      = some (.ComputeError "Solution is not optimal. Suboptimal") ∧
    (update suboptimalSolver (update suboptimalSolver computeDemo .Compute).1
        (.ComputeError "Solution is not optimal. Suboptimal")).1.recipe_uses
      = some [5] ∧
    (update suboptimalSolver (update suboptimalSolver computeDemo .Compute).1
        (.ComputeError "Solution is not optimal. Suboptimal")).1.error
      = some "Solution is not optimal. Suboptimal" := by
  refine ⟨rfl, rfl, rfl, rfl, ?_, rfl, rfl, rfl⟩
  norm_num [projectStats, demoEM, LinExpr.eval]

/-- C2 amended: whenever the solver returns a solution whose status is not
`Optimal`, the compute operation surfaces an error carrying the status — but
only after overwriting `recipe_uses` and `item_stats` with the usage vector and
item statistics of that very solve; the stored values are those of the
non-optimal solution, not preserved previous ones. -/
theorem nonoptimal_stores_then_errors (solver : Solver) (s : AppState)
    (em : ExprMap) (co : List Constraint × LinExpr) (a : ℕ → ℚ) (st : SolStatus)
    (hb : buildExpressions s.recipes s.known_items = .ok em)
    (hc : compileGo em s.known_items ([], []) = .ok co)
    (hsol : solver co.1 co.2 = .ok ⟨a, st⟩)
    (hst : st ≠ .Optimal) :
    update solver s .Compute =
      ({ s with recipe_uses := some ((List.range s.recipes.length).map a),
                item_stats := some (projectStats em a) },
       some (.ComputeError ("Solution is not optimal. " ++ statusStr st))) := by
  show computeUpdate solver s = _
  simp only [computeUpdate, hb, hc, hsol]

/-- Witness for C2's amended statement on the concrete suboptimal run. -/
theorem nonoptimal_stores_then_errors_witness :
    update suboptimalSolver computeDemo .Compute =
      ({ computeDemo with
          recipe_uses := some ((List.range computeDemo.recipes.length).map fun _ => (5 : ℚ)),
          item_stats := some (projectStats demoEM fun _ => (5 : ℚ)) },
       some (.ComputeError ("Solution is not optimal. " ++ statusStr .Suboptimal))) :=
  nonoptimal_stores_then_errors suboptimalSolver computeDemo demoEM
    ([⟨"wood", LinExpr.sub [(((10 : ℕ) : ℚ) * 1, 0)] [], 50⟩], [])
    (fun _ => 5) .Suboptimal (by rfl) (by rfl) (by rfl) (by decide)

/-! ## C6: an unfinished recipe fails fast -/

theorem exprMapGet_cons (x : Item × (LinExpr × LinExpr)) (rest : ExprMap) (j : Item) :
    exprMapGet (x :: rest) j = if x.1 = j then some x.2 else exprMapGet rest j := by
  by_cases h : x.1 = j <;> simp [exprMapGet, List.find?_cons, h]

theorem ledgerGet_cons (x : Item × LedgerEntry) (rest : Ledger) (j : Item) :
    ledgerGet (x :: rest) j = if x.1 = j then some x.2 else ledgerGet rest j := by
  by_cases h : x.1 = j <;> simp [ledgerGet, List.find?_cons, h]

theorem exprMapGet_modify (em : ExprMap) (k j : Item)
    (f : LinExpr × LinExpr → LinExpr × LinExpr) :
    exprMapGet (exprMapModify em k f) j =
      if j = k then (exprMapGet em j).map f else exprMapGet em j := by
  induction em with
  | nil => by_cases h : j = k <;> simp [exprMapGet, exprMapModify, h]
  | cons e rest ih =>
    have hmod : exprMapModify (e :: rest) k f
        = (if e.1 = k then (e.1, f e.2) else e) :: exprMapModify rest k f := by
      simp [exprMapModify]
    rw [hmod]
    by_cases hek : e.1 = k
    · rw [if_pos hek, exprMapGet_cons, exprMapGet_cons]
      by_cases hej : e.1 = j
      · have hjk : j = k := by rw [← hej]; exact hek
        simp [hej, hjk]
      · rw [if_neg hej, if_neg hej, ih]
    · rw [if_neg hek, exprMapGet_cons, exprMapGet_cons]
      by_cases hej : e.1 = j
      · have hjk : ¬ j = k := by rw [← hej]; exact hek
        simp [hej, hjk]
      · rw [if_neg hej, if_neg hej, ih]

theorem exprMapGet_initExpressions (l : Ledger) (k : Item) :
    exprMapGet (initExpressions l) k
      = (ledgerGet l k).map fun _ => (([], []) : LinExpr × LinExpr) := by
  induction l with
  | nil => rfl
  | cons e rest ih =>
    have h : initExpressions (e :: rest) = (e.1, ([], [])) :: initExpressions rest := rfl
    rw [h, exprMapGet_cons, ledgerGet_cons]
    by_cases hek : e.1 = k <;> simp [hek, ih]

theorem applyEntry_ok_isSome (em em2 : ExprMap) (i : ℕ) (ent : Item × ℚ × Bool)
    (h : applyEntry em i ent = .ok em2) :
    ∀ k, (exprMapGet em2 k).isSome = (exprMapGet em k).isSome := by
  intro k
  rw [applyEntry] at h
  cases hg : exprMapGet em ent.1 with
  | none => rw [hg] at h; exact absurd h (by simp)
  | some pu =>
    rw [hg] at h
    obtain rfl : exprMapModify em ent.1 _ = em2 := by
      cases h; rfl
    rw [exprMapGet_modify]
    by_cases hk : k = ent.1 <;> simp [hk]

theorem processEntries_ok_exists (ents : List (Item × ℚ × Bool)) (i : ℕ) (em : ExprMap)
    (h : ∀ ent ∈ ents, (exprMapGet em ent.1).isSome) :
    ∃ em2, processEntries i ents em = .ok em2 ∧
      ∀ k, (exprMapGet em2 k).isSome = (exprMapGet em k).isSome := by
  induction ents generalizing em with
  | nil => exact ⟨em, rfl, fun _ => rfl⟩
  | cons ent rest ih =>
    have hent : (exprMapGet em ent.1).isSome := h ent (by simp)
    cases hg : exprMapGet em ent.1 with
    | none => rw [hg] at hent; exact absurd hent (by simp)
    | some pu =>
      have happ : applyEntry em i ent = .ok (exprMapModify em ent.1 fun pu =>
          if ent.2.2 then (LinExpr.add_mul pu.1 ent.2.1 i, pu.2)
          else (pu.1, LinExpr.add_mul pu.2 ent.2.1 i)) := by
        rw [applyEntry, hg]
      have hpres := applyEntry_ok_isSome _ _ _ _ happ
      obtain ⟨em2, hok, hpres2⟩ := ih _ (fun ent2 hent2 => by
        rw [hpres]; exact h ent2 (by simp [hent2]))
      refine ⟨em2, ?_, fun k => (hpres2 k).trans (hpres k)⟩
      rw [processEntries, happ]
      exact hok

theorem buildExprsGo_not_ready (rs : List EditableContent) :
    ∀ (i : ℕ) (em : ExprMap), (∃ j b, rs.get? j = some (.Builder b)) →
    (∀ j r, rs.get? j = some (.Built r) →
      ∀ ent ∈ recipeEntries r, (exprMapGet em ent.1).isSome) →
    buildExprsGo i rs em = .error notReadyMsg := by
  induction rs with
  | nil => rintro i em ⟨j, b, hj⟩ _; simp at hj
  | cons c rest ih =>
    rintro i em ⟨j, b, hj⟩ hsync
    cases c with
    | Builder bs => rfl
    | Built r =>
      obtain ⟨em2, hok, hpres⟩ :=
        processEntries_ok_exists (recipeEntries r) i em (hsync 0 r rfl)
      have hj2 : ∃ j2 b2, rest.get? j2 = some (.Builder b2) := by
        cases j with
        | zero => simp at hj
        | succ j2 => exact ⟨j2, b, hj⟩
      have hsync2 : ∀ j2 r2, rest.get? j2 = some (.Built r2) →
          ∀ ent ∈ recipeEntries r2, (exprMapGet em2 ent.1).isSome := by
        intro j2 r2 hj2 ent hent
        rw [hpres]
        exact hsync (j2 + 1) r2 hj2 ent hent
      rw [buildExprsGo, hok]
      exact ih (i + 1) em2 hj2 hsync2

/-- Helper for C6: the not-ready error, under the explicit hypothesis that the
ledger covers the items of the built recipes (discharged for reachable states
below). -/
theorem compute_not_ready_synced (solver : Solver) (s : AppState)
    (hsync : ∀ j r, s.recipes.get? j = some (.Built r) →
      ∀ ent ∈ recipeEntries r, (ledgerGet s.known_items ent.1).isSome)
    (hb : ∃ j b, s.recipes.get? j = some (.Builder b)) :
    update solver s .Compute = (s, some (.ComputeError notReadyMsg)) := by
  have h : buildExprsGo 0 s.recipes (initExpressions s.known_items) = .error notReadyMsg := by
    refine buildExprsGo_not_ready s.recipes 0 (initExpressions s.known_items) hb ?_
    intro j r hj ent hent
    rw [exprMapGet_initExpressions]
    have hg := hsync j r hj ent hent
    cases hgg : ledgerGet s.known_items ent.1 with
    | none => rw [hgg] at hg; exact absurd hg (by simp)
    | some e => simp
  show computeUpdate solver s = _
  simp only [computeUpdate, buildExpressions, h]


/-! ## Ledger lookup lemmas -/

theorem ledgerGet_modify (l : Ledger) (k j : Item) (f : LedgerEntry → LedgerEntry) :
    ledgerGet (ledgerModify l k f) j =
      if j = k then (ledgerGet l j).map f else ledgerGet l j := by
  induction l with
  | nil => by_cases h : j = k <;> simp [ledgerGet, ledgerModify, h]
  | cons e rest ih =>
    have hmod : ledgerModify (e :: rest) k f
        = (if e.1 = k then (e.1, f e.2) else e) :: ledgerModify rest k f := by
      simp [ledgerModify]
    rw [hmod]
    by_cases hek : e.1 = k
    · rw [if_pos hek, ledgerGet_cons, ledgerGet_cons]
      by_cases hej : e.1 = j
      · have hjk : j = k := by rw [← hej]; exact hek
        simp [hej, hjk]
      · rw [if_neg hej, if_neg hej, ih]
    · rw [if_neg hek, ledgerGet_cons, ledgerGet_cons]
      by_cases hej : e.1 = j
      · have hjk : ¬ j = k := by rw [← hej]; exact hek
        simp [hej, hjk]
      · rw [if_neg hej, if_neg hej, ih]

theorem ledgerGet_remove_self (l : Ledger) (k : Item) :
    ledgerGet (ledgerRemove l k) k = none := by
  induction l with
  | nil => rfl
  | cons e rest ih =>
    by_cases h : e.1 = k
    · simpa [ledgerRemove, h] using ih
    · have : ledgerRemove (e :: rest) k = e :: ledgerRemove rest k := by
        simp [ledgerRemove, h]
      rw [this, ledgerGet_cons, if_neg h]
      exact ih

theorem ledgerGet_remove_ne (l : Ledger) (k j : Item) (hj : j ≠ k) :
    ledgerGet (ledgerRemove l k) j = ledgerGet l j := by
  induction l with
  | nil => rfl
  | cons e rest ih =>
    by_cases h : e.1 = k
    · have hne : ¬ e.1 = j := by rw [h]; exact fun hh => hj hh.symm
      have : ledgerRemove (e :: rest) k = ledgerRemove rest k := by
        simp [ledgerRemove, h]
      rw [this, ledgerGet_cons, if_neg hne]
      exact ih
    · have : ledgerRemove (e :: rest) k = e :: ledgerRemove rest k := by
        simp [ledgerRemove, h]
      rw [this, ledgerGet_cons, ledgerGet_cons]
      by_cases hej : e.1 = j
      · simp [hej]
      · rw [if_neg hej, if_neg hej]
        exact ih

theorem ledgerGet_insert (l : Ledger) (k j : Item) (v : LedgerEntry) :
    ledgerGet (ledgerInsert l k v) j =
      match ledgerGet l j with
      | some e => some e
      | none => if k = j then some v else none := by
  induction l with
  | nil =>
    show ledgerGet [(k, v)] j = _
    rw [ledgerGet_cons]
    by_cases h : k = j <;> simp [h, ledgerGet]
  | cons e rest ih =>
    have : ledgerInsert (e :: rest) k v = e :: ledgerInsert rest k v := rfl
    rw [this, ledgerGet_cons, ledgerGet_cons]
    by_cases hej : e.1 = j
    · simp [hej]
    · rw [if_neg hej, if_neg hej]
      exact ih

/-! ## Reachable demo states -/

theorem reachable_rsA : Reachable rsA :=
  Reachable.step initialApp .AddRecipe dummySolver Reachable.init trivial

theorem reachable_rsB : Reachable rsB :=
  Reachable.step rsA
    (.Action 0 (.BuilderAction (.AddProduct "wood" ⟨1, by omega⟩ ⟨100, by omega⟩)))
    dummySolver reachable_rsA ⟨_, rfl⟩

theorem reachable_rsC : Reachable rsC :=
  Reachable.step rsB (.Build 0) dummySolver reachable_rsB
    ⟨⟨[("wood", ⟨1, by omega⟩, ⟨100, by omega⟩)], []⟩, by rfl⟩

theorem reachable_rsD : Reachable rsD :=
  Reachable.step rsC (.ToggleTarget "wood" true) dummySolver reachable_rsC trivial

/-! ## C3: recipe removal and the item ledger -/

/-- C3 fails on the code: eviction does not consult the annotations.  In the
reachable state `rsD` the only recipe references the annotated item `"wood"`
(stored counter 0, target set); deleting that recipe removes the ledger entry —
the annotated entry does not survive. -/
theorem annotated_entry_evicted_counterexample :
    Reachable rsD ∧
    rsD.recipes = [.Built ⟨[], [("wood", 1, ((100 : ℕ) : ℚ) / 100)]⟩] ∧
    rsD.known_items = [("wood", (0, some 1, none))] ∧
    rsE = (update dummySolver rsD (.Delete 0)).1 ∧
    rsE.known_items = [] ∧
    ledgerGet rsE.known_items "wood" = none :=
  ⟨reachable_rsD, rfl, rfl, rfl, rfl, rfl⟩

/-- C3 amended: deleting (or reopening for edit) a built recipe applies one
ledger step per ingredient/product occurrence; a step on an item whose stored
counter is zero removes the entry outright — regardless of any target or
raw-cost annotation — and otherwise decrements the counter, keeping the
annotations and leaving all other entries unchanged.  An annotated item's entry
is therefore also evicted with its last referencing recipe. -/
theorem remove_recipe_ledger_update (solver : Solver) (s : AppState) (i : ℕ)
    (rec : Recipe) (l : Ledger) (item : Item) (q : ℕ) (t rw : Option ℚ)
    (hrec : s.recipes.get? i = some (.Built rec))
    (hget : ledgerGet l item = some (q, t, rw)) :
    (update solver s (.Delete i)).1.known_items
      = (recipeOccs rec).foldl removeItemOcc s.known_items ∧
    (update solver s (.Edit i)).1.known_items
      = (recipeOccs rec).foldl removeItemOcc s.known_items ∧
    (q = 0 → removeItemOcc l item = ledgerRemove l item ∧
      ledgerGet (removeItemOcc l item) item = none) ∧
    (q ≠ 0 → ledgerGet (removeItemOcc l item) item = some (q - 1, t, rw)) ∧
    (∀ j, j ≠ item → ledgerGet (removeItemOcc l item) j = ledgerGet l j) := by
  refine ⟨?_, ?_, ?_, ?_, ?_⟩
  · simp only [update, hrec, invalidate, removeRecipeItems]
  · simp only [update, hrec, invalidate, removeRecipeItems]
  · intro h0
    simp only [removeItemOcc, hget]
    rw [if_pos h0]
    exact ⟨rfl, ledgerGet_remove_self l item⟩
  · intro hne
    simp only [removeItemOcc, hget]
    rw [if_neg hne, ledgerGet_modify, if_pos rfl, hget]
    rfl
  · intro j hj
    simp only [removeItemOcc, hget]
    by_cases h0 : q = 0
    · rw [if_pos h0]
      exact ledgerGet_remove_ne l item j hj
    · rw [if_neg h0, ledgerGet_modify, if_neg hj]

/-- Witness for C3's amended statement on the reachable state `rsD`. -/
theorem remove_recipe_ledger_update_witness :
    (update dummySolver rsD (.Delete 0)).1.known_items
      = (recipeOccs ⟨[], [("wood", 1, ((100 : ℕ) : ℚ) / 100)]⟩).foldl
          removeItemOcc rsD.known_items ∧
    removeItemOcc [("wood", (0, some 1, none))] "wood"
      = ledgerRemove [("wood", (0, some 1, none))] "wood" ∧
    ledgerGet (removeItemOcc [("wood", (0, some 1, none))] "wood") "wood" = none := by
  obtain ⟨h1, h2, h3, h4, h5⟩ :=
    remove_recipe_ledger_update dummySolver rsD 0
      ⟨[], [("wood", 1, ((100 : ℕ) : ℚ) / 100)]⟩
      [("wood", (0, some 1, none))] "wood" 0 (some 1) none (by rfl) (by rfl)
  exact ⟨h1, (h3 rfl).1, (h3 rfl).2⟩

/-! ## C7: the ledger reference counter -/

theorem addItemOcc_get_self (l : Ledger) (it : Item) :
    ledgerGet (addItemOcc l it) it =
      match ledgerGet l it with
      | some e => some (e.1 + 1, e.2)
      | none => some (0, none, none) := by
  cases hg : ledgerGet l it with
  | none =>
    simp only [addItemOcc, hg]
    rw [ledgerGet_insert, hg]
    simp
  | some e =>
    simp only [addItemOcc, hg]
    rw [ledgerGet_modify, if_pos rfl, hg]
    rfl

theorem addItemOcc_get_ne (l : Ledger) (it j : Item) (hj : j ≠ it) :
    ledgerGet (addItemOcc l it) j = ledgerGet l j := by
  cases hg : ledgerGet l it with
  | none =>
    simp only [addItemOcc, hg]
    rw [ledgerGet_insert]
    cases hgj : ledgerGet l j with
    | none => rw [if_neg (fun h => hj h.symm)]
    | some e => rfl
  | some e =>
    simp only [addItemOcc, hg]
    rw [ledgerGet_modify, if_neg hj]

theorem removeItemOcc_get_ne (l : Ledger) (it j : Item) (hj : j ≠ it) :
    ledgerGet (removeItemOcc l it) j = ledgerGet l j := by
  cases hg : ledgerGet l it with
  | none => simp only [removeItemOcc, hg]
  | some e =>
    simp only [removeItemOcc, hg]
    by_cases h0 : e.1 = 0
    · rw [if_pos h0]
      exact ledgerGet_remove_ne l it j hj
    · rw [if_neg h0, ledgerGet_modify, if_neg hj]

theorem addItems_rel (os : List Item) :
    ∀ (l : Ledger) (f : Item → ℕ),
      (∀ item, countRel (ledgerGet l item) (f item)) →
      ∀ item, countRel (ledgerGet (os.foldl addItemOcc l) item) (f item + os.count item) := by
  induction os with
  | nil => intro l f h item; simpa using h item
  | cons o rest ih =>
    intro l f h item
    have hstep : ∀ item2, countRel (ledgerGet (addItemOcc l o) item2)
        (f item2 + if o = item2 then 1 else 0) := by
      intro item2
      by_cases ho : item2 = o
      · subst ho
        rw [addItemOcc_get_self, if_pos rfl]
        have hrel := h item2
        cases hg : ledgerGet l item2 <;> rw [hg] at hrel <;>
          simp only [countRel] at hrel ⊢ <;> omega
      · rw [addItemOcc_get_ne l o item2 ho,
          if_neg (fun h2 => ho h2.symm), Nat.add_zero]
        exact h item2
    have hrec := ih (addItemOcc l o) _ hstep item
    have hc : (o :: rest).count item = rest.count item + (if o = item then 1 else 0) := by
      rw [List.count_cons]
      by_cases hcase : o = item <;> simp [hcase]
    have harith : f item + (o :: rest).count item
        = f item + (if o = item then 1 else 0) + rest.count item := by omega
    rw [List.foldl_cons, harith]
    exact hrec

theorem removeItems_rel (os : List Item) :
    ∀ (l : Ledger) (f : Item → ℕ),
      (∀ item, countRel (ledgerGet l item) (f item)) →
      (∀ item, os.count item ≤ f item) →
      ∀ item, countRel (ledgerGet (os.foldl removeItemOcc l) item) (f item - os.count item) := by
  induction os with
  | nil => intro l f h _ item; simpa using h item
  | cons o rest ih =>
    intro l f h hle item
    have hstep : ∀ item2, countRel (ledgerGet (removeItemOcc l o) item2)
        (f item2 - if o = item2 then 1 else 0) := by
      intro item2
      by_cases ho : item2 = o
      · subst ho
        rw [if_pos rfl]
        have hcnt : 1 ≤ f item2 := by
          refine le_trans ?_ (hle item2)
          simp [List.count_cons]
        have hrel := h item2
        cases hg : ledgerGet l item2 with
        | none =>
          rw [hg] at hrel
          simp only [countRel] at hrel
          omega
        | some e =>
          rw [hg] at hrel
          simp only [countRel] at hrel
          simp only [removeItemOcc, hg]
          by_cases h0 : e.1 = 0
          · rw [if_pos h0, ledgerGet_remove_self]
            simp only [countRel]
            omega
          · rw [if_neg h0, ledgerGet_modify, if_pos rfl, hg]
            show countRel (some (e.1 - 1, e.2)) (f item2 - 1)
            simp only [countRel]
            omega
      · rw [removeItemOcc_get_ne l o item2 ho,
          if_neg (fun h2 => ho h2.symm), Nat.sub_zero]
        exact h item2
    have hle2 : ∀ item2, rest.count item2 ≤ f item2 - (if o = item2 then 1 else 0) := by
      intro item2
      have hc := hle item2
      rw [List.count_cons] at hc
      by_cases hcase : o = item2 <;> simp [hcase] at hc ⊢ <;> omega
    have hrec := ih (removeItemOcc l o) _ hstep hle2 item
    have hc : (o :: rest).count item = rest.count item + (if o = item then 1 else 0) := by
      rw [List.count_cons]
      by_cases hcase : o = item <;> simp [hcase]
    have harith : f item - (o :: rest).count item
        = f item - (if o = item then 1 else 0) - rest.count item := by omega
    rw [List.foldl_cons, harith]
    exact hrec

theorem occCount_append_one (item : Item) (rs : List EditableContent) (c : EditableContent) :
    occCount item (rs ++ [c]) = occCount item rs + occContrib c item := by
  simp [occCount, occContrib]

theorem occCount_listModify (rs : List EditableContent) :
    ∀ (i : ℕ) (c : EditableContent) (f : EditableContent → EditableContent),
      rs.get? i = some c → ∀ item,
      occCount item (listModify rs i f) + occContrib c item
        = occCount item rs + occContrib (f c) item := by
  induction rs with
  | nil => intro i c f h; simp at h
  | cons x rest ih =>
    intro i c f h item
    cases i with
    | zero =>
      obtain rfl : x = c := by simpa using h
      simp only [listModify, occCount, occContrib, List.map_cons, List.sum_cons]
      omega
    | succ i2 =>
      have h2 : rest.get? i2 = some c := by simpa using h
      have := ih i2 c f h2 item
      simp only [listModify, occCount, occContrib, List.map_cons, List.sum_cons] at this ⊢
      omega

theorem occCount_set (rs : List EditableContent) :
    ∀ (i : ℕ) (c c2 : EditableContent), rs.get? i = some c → ∀ item,
      occCount item (rs.set i c2) + occContrib c item
        = occCount item rs + occContrib c2 item := by
  induction rs with
  | nil => intro i c c2 h; simp at h
  | cons x rest ih =>
    intro i c c2 h item
    cases i with
    | zero =>
      obtain rfl : x = c := by simpa using h
      simp only [List.set, occCount, occContrib, List.map_cons, List.sum_cons]
      omega
    | succ i2 =>
      have h2 : rest.get? i2 = some c := by simpa using h
      have := ih i2 c c2 h2 item
      simp only [List.set, occCount, occContrib, List.map_cons, List.sum_cons] at this ⊢
      omega

theorem occCount_eraseIdx (rs : List EditableContent) :
    ∀ (i : ℕ) (c : EditableContent), rs.get? i = some c → ∀ item,
      occCount item (rs.eraseIdx i) + occContrib c item = occCount item rs := by
  induction rs with
  | nil => intro i c h; simp at h
  | cons x rest ih =>
    intro i c h item
    cases i with
    | zero =>
      obtain rfl : x = c := by simpa using h
      simp only [List.eraseIdx, occCount, occContrib, List.map_cons, List.sum_cons]
      omega
    | succ i2 =>
      have h2 : rest.get? i2 = some c := by simpa using h
      have := ih i2 c h2 item
      simp only [List.eraseIdx, occCount, occContrib, List.map_cons, List.sum_cons] at this ⊢
      omega

theorem occContrib_le_occCount (rs : List EditableContent) :
    ∀ (i : ℕ) (c : EditableContent), rs.get? i = some c → ∀ item,
      occContrib c item ≤ occCount item rs := by
  induction rs with
  | nil => intro i c h; simp at h
  | cons x rest ih =>
    intro i c h item
    cases i with
    | zero =>
      obtain rfl : x = c := by simpa using h
      simp only [occCount, occContrib, List.map_cons, List.sum_cons]
      omega
    | succ i2 =>
      have h2 : rest.get? i2 = some c := by simpa using h
      have := ih i2 c h2 item
      simp only [occCount, occContrib, List.map_cons, List.sum_cons] at this ⊢
      omega

theorem listModify_oob (rs : List α) :
    ∀ (i : ℕ) (f : α → α), rs.get? i = none → listModify rs i f = rs := by
  induction rs with
  | nil => intro i f _; rfl
  | cons x rest ih =>
    intro i f h
    cases i with
    | zero => simp at h
    | succ i2 =>
      have h2 : rest.get? i2 = none := by simpa using h
      simp only [listModify]
      rw [ih i2 f h2]

theorem eraseIdx_oob (rs : List α) :
    ∀ i : ℕ, rs.get? i = none → rs.eraseIdx i = rs := by
  induction rs with
  | nil => intro i _; rfl
  | cons x rest ih =>
    intro i h
    cases i with
    | zero => simp at h
    | succ i2 =>
      have h2 : rest.get? i2 = none := by simpa using h
      simp only [List.eraseIdx]
      rw [ih i2 h2]

theorem occContrib_builderAction (c : EditableContent) (ba : BuilderAction) (item : Item) :
    occContrib (c.perform (.BuilderAction ba)) item = occContrib c item := by
  cases c <;> rfl

theorem computeUpdate_preserves (solver : Solver) (s : AppState) :
    (computeUpdate solver s).1.recipes = s.recipes ∧
    (computeUpdate solver s).1.known_items = s.known_items := by
  rw [computeUpdate]
  split
  · exact ⟨rfl, rfl⟩
  · split
    · exact ⟨rfl, rfl⟩
    · split
      · exact ⟨rfl, rfl⟩
      · split <;> exact ⟨rfl, rfl⟩

/-- The inductive invariant behind C7: in every reachable state, each ledger
entry stores one less than the item's occurrence count over the built recipes,
and an item without an entry has no occurrence. -/
theorem reachable_count_rel (s : AppState) (hs : Reachable s) :
    ∀ item, countRel (ledgerGet s.known_items item) (occCount item s.recipes) := by
  induction hs with
  | init =>
    intro item
    exact rfl
  | step s m solver hs hm ih =>
    cases m with
    | Action i a =>
      obtain ⟨ba, rfl⟩ := hm
      intro item
      simp only [update, invalidate]
      cases hg : s.recipes.get? i with
      | none =>
        rw [listModify_oob s.recipes i _ hg]
        exact ih item
      | some c =>
        have h1 := occCount_listModify s.recipes i c
          (fun r => r.perform (.BuilderAction ba)) hg item
        rw [occContrib_builderAction] at h1
        have h2 : occCount item (listModify s.recipes i
            fun r => r.perform (.BuilderAction ba)) = occCount item s.recipes := by omega
        rw [h2]
        exact ih item
    | Build i =>
      obtain ⟨b, hb⟩ := hm
      intro item
      simp only [update, hb, invalidate, EditableContent.perform]
      have hset := occCount_set s.recipes i (.Builder b) (.Built b.build) hb item
      have hocc : occCount item (s.recipes.set i (.Built b.build))
          = occCount item s.recipes + (recipeOccs b.build).count item := by
        have hc : occContrib (.Builder b) item = 0 := rfl
        have hc2 : occContrib (.Built b.build) item = (recipeOccs b.build).count item := rfl
        omega
      rw [hocc, addRecipeItems]
      exact addItems_rel (recipeOccs b.build) s.known_items _ ih item
    | Edit i =>
      intro item
      cases hg : s.recipes.get? i with
      | none =>
        simp only [update, hg, invalidate]
        exact ih item
      | some c =>
        cases c with
        | Builder b =>
          simp only [update, hg, invalidate, removeRecipeItems, EditableContent.perform]
          have hset := occCount_set s.recipes i (.Builder b) (.Builder b) hg item
          have hocc : occCount item (s.recipes.set i (.Builder b))
              = occCount item s.recipes := by
            have hc : occContrib (.Builder b) item = 0 := rfl
            omega
          rw [hocc]
          exact ih item
        | Built r =>
          simp only [update, hg, invalidate, removeRecipeItems, EditableContent.perform]
          have hle : ∀ item2, (recipeOccs r).count item2 ≤ occCount item2 s.recipes := by
            intro item2
            exact occContrib_le_occCount s.recipes i (.Built r) hg item2
          have hset := occCount_set s.recipes i (.Built r)
            (.Builder (BuilderState.from_recipe r)) hg item
          have hocc : occCount item (s.recipes.set i (.Builder (BuilderState.from_recipe r)))
              = occCount item s.recipes - (recipeOccs r).count item := by
            have hc : occContrib (.Builder (BuilderState.from_recipe r)) item = 0 := rfl
            have hc2 : occContrib (.Built r) item = (recipeOccs r).count item := rfl
            have := hle item
            omega
          rw [hocc]
          exact removeItems_rel (recipeOccs r) s.known_items _ ih hle item
    | Delete i =>
      intro item
      cases hg : s.recipes.get? i with
      | none =>
        simp only [update, hg, invalidate]
        rw [eraseIdx_oob s.recipes i hg]
        exact ih item
      | some c =>
        cases c with
        | Builder b =>
          simp only [update, hg, invalidate, removeRecipeItems]
          have herase := occCount_eraseIdx s.recipes i (.Builder b) hg item
          have hocc : occCount item (s.recipes.eraseIdx i) = occCount item s.recipes := by
            have hc : occContrib (.Builder b) item = 0 := rfl
            omega
          rw [hocc]
          exact ih item
        | Built r =>
          simp only [update, hg, invalidate, removeRecipeItems]
          have hle : ∀ item2, (recipeOccs r).count item2 ≤ occCount item2 s.recipes := by
            intro item2
            exact occContrib_le_occCount s.recipes i (.Built r) hg item2
          have herase := occCount_eraseIdx s.recipes i (.Built r) hg item
          have hocc : occCount item (s.recipes.eraseIdx i)
              = occCount item s.recipes - (recipeOccs r).count item := by
            have hc2 : occContrib (.Built r) item = (recipeOccs r).count item := rfl
            have := hle item
            omega
          rw [hocc]
          exact removeItems_rel (recipeOccs r) s.known_items _ ih hle item
    | AddRecipe =>
      intro item
      simp only [update, invalidate]
      rw [occCount_append_one]
      have hc : occContrib (.Builder BuilderState.new) item = 0 := rfl
      rw [hc, Nat.add_zero]
      exact ih item
    | ToggleTarget it b =>
      intro item
      simp only [update, invalidate]
      rw [ledgerGet_modify]
      by_cases h : item = it
      · rw [if_pos h]
        have hrel := ih item
        cases hg : ledgerGet s.known_items item <;> rw [hg] at hrel <;>
          simp only [Option.map_some, Option.map_none, countRel] at hrel ⊢ <;> exact hrel
      · rw [if_neg h]
        exact ih item
    | EditTargetAmount it v =>
      intro item
      simp only [update, invalidate]
      rw [ledgerGet_modify]
      by_cases h : item = it
      · rw [if_pos h]
        have hrel := ih item
        cases hg : ledgerGet s.known_items item <;> rw [hg] at hrel <;>
          simp only [Option.map_some, Option.map_none, countRel] at hrel ⊢ <;> exact hrel
      · rw [if_neg h]
        exact ih item
    | ToggleRaw it b =>
      intro item
      simp only [update, invalidate]
      rw [ledgerGet_modify]
      by_cases h : item = it
      · rw [if_pos h]
        have hrel := ih item
        cases hg : ledgerGet s.known_items item <;> rw [hg] at hrel <;>
          simp only [Option.map_some, Option.map_none, countRel] at hrel ⊢ <;> exact hrel
      · rw [if_neg h]
        exact ih item
    | EditRawCost it v =>
      intro item
      simp only [update, invalidate]
      rw [ledgerGet_modify]
      by_cases h : item = it
      · rw [if_pos h]
        have hrel := ih item
        cases hg : ledgerGet s.known_items item <;> rw [hg] at hrel <;>
          simp only [Option.map_some, Option.map_none, countRel] at hrel ⊢ <;> exact hrel
      · rw [if_neg h]
        exact ih item
    | Compute =>
      intro item
      obtain ⟨h1, h2⟩ := computeUpdate_preserves solver s
      show countRel (ledgerGet (computeUpdate solver s).1.known_items item)
        (occCount item (computeUpdate solver s).1.recipes)
      rw [h1, h2]
      exact ih item
    | ComputeError msg =>
      intro item
      exact ih item
    | EditScale v =>
      intro item
      exact ih item

/-- In every reachable state the ledger covers every item referenced by a built
recipe: such an item occurs at least once, so by the counter invariant it has an
entry. -/
theorem reachable_ledger_synced (s : AppState) (hs : Reachable s) :
    ∀ j r, s.recipes.get? j = some (.Built r) →
      ∀ ent ∈ recipeEntries r, (ledgerGet s.known_items ent.1).isSome := by
  intro j r hj ent hent
  have hmem : ent.1 ∈ recipeOccs r := by
    rw [recipeEntries] at hent
    rw [recipeOccs]
    rcases List.mem_append.1 hent with hh | hh
    · obtain ⟨x, hx, rfl⟩ := List.mem_map.1 hh
      exact List.mem_append.2 (Or.inl (List.mem_map.2 ⟨x, hx, rfl⟩))
    · obtain ⟨x, hx, rfl⟩ := List.mem_map.1 hh
      exact List.mem_append.2 (Or.inr (List.mem_map.2 ⟨x, hx, rfl⟩))
  have hcnt : 0 < (recipeOccs r).count ent.1 := List.count_pos_iff.2 hmem
  have hle := occContrib_le_occCount s.recipes j (.Built r) hj ent.1
  have hc : occContrib (.Built r) ent.1 = (recipeOccs r).count ent.1 := rfl
  have hrel := reachable_count_rel s hs ent.1
  cases hg : ledgerGet s.known_items ent.1 with
  | some e => simp
  | none =>
    rw [hg] at hrel
    simp only [countRel] at hrel
    omega

/-- C6: in any reachable state whose collection contains a recipe still in the
builder (unfinished) state, `Message::Compute` returns the not-ready error and
leaves the state untouched; the equation holds for every solver oracle — the
solver is never invoked — and the handler stops inside the expression loop, so
no constraint is ever constructed (`compileGo` is never reached). -/
theorem compute_not_ready (solver : Solver) (s : AppState) (hs : Reachable s)
    (hb : ∃ j b, s.recipes.get? j = some (.Builder b)) :
    update solver s .Compute = (s, some (.ComputeError notReadyMsg)) :=
  compute_not_ready_synced solver s (reachable_ledger_synced s hs) hb

/-- Witness for C6 on the reachable state with one freshly added (unbuilt)
recipe row. -/
theorem compute_not_ready_witness :
    update dummySolver rsA .Compute = (rsA, some (.ComputeError notReadyMsg)) :=
  compute_not_ready dummySolver rsA reachable_rsA ⟨0, BuilderState.new, rfl⟩

/-- C7 fails on the code: in the reachable state `rsC` the only built recipe
references `"wood"` once, but the stored reference counter is 0 — the first
insertion stores 0, not 1, so the counter is the occurrence count minus one. -/
theorem ledger_count_off_by_one_counterexample :
    Reachable rsC ∧
    ledgerGet rsC.known_items "wood" = some (0, none, none) ∧
    occCount "wood" rsC.recipes = 1 :=
  ⟨reachable_rsC, rfl, rfl⟩

/-- C7 amended: in every application state reachable from the empty initial
state through UI-emitted messages, each item ledger entry's stored reference
counter equals the number of (ingredient or product) occurrences of that item
across all built recipes *minus one* (and an item with no entry has no
occurrence); the counter is an occurrence count shifted by the initial 0. -/
theorem reachable_ledger_count (s : AppState) (hs : Reachable s) (item : Item)
    (q : ℕ) (t rw : Option ℚ)
    (hget : ledgerGet s.known_items item = some (q, t, rw)) :
    q + 1 = occCount item s.recipes := by
  have hrel := reachable_count_rel s hs item
  rw [hget] at hrel
  exact hrel

/-- Witness for C7's amended statement on the reachable state `rsC`. -/
theorem reachable_ledger_count_witness :
    (0 : ℕ) + 1 = occCount "wood" rsC.recipes :=
  reachable_ledger_count rsC reachable_rsC "wood" 0 none none rfl

/-! ## C5: the model builder -/

theorem coeff_cons (c : ℚ) (w : ℕ) (e : LinExpr) (v : ℕ) :
    LinExpr.coeff ((c, w) :: e) v = (if w = v then c else 0) + LinExpr.coeff e v := by
  by_cases h : w = v <;> simp [LinExpr.coeff, List.filter_cons, h]

theorem entsProdSum_cons (ent : Item × ℚ × Bool) (rest : List (Item × ℚ × Bool))
    (item : Item) :
    entsProdSum (ent :: rest) item
      = (if ent.1 = item ∧ ent.2.2 = true then ent.2.1 else 0) + entsProdSum rest item := by
  by_cases h1 : ent.1 = item <;> by_cases h2 : ent.2.2 = true <;>
    simp [entsProdSum, List.filter_cons, h1, h2]

theorem entsConsSum_cons (ent : Item × ℚ × Bool) (rest : List (Item × ℚ × Bool))
    (item : Item) :
    entsConsSum (ent :: rest) item
      = (if ent.1 = item ∧ ent.2.2 = false then ent.2.1 else 0) + entsConsSum rest item := by
  by_cases h1 : ent.1 = item <;> by_cases h2 : ent.2.2 = true <;>
    simp [entsConsSum, List.filter_cons, h1, h2]

theorem coeff_add_mul (e : LinExpr) (c : ℚ) (v w : ℕ) :
    LinExpr.coeff (LinExpr.add_mul e c v) w = (if v = w then c else 0) + LinExpr.coeff e w :=
  coeff_cons c v e w

theorem processEntries_spec (ents : List (Item × ℚ × Bool)) (i : ℕ) :
    ∀ (em em2 : ExprMap), processEntries i ents em = .ok em2 →
    ∀ item,
      (exprMapGet em item = none → exprMapGet em2 item = none) ∧
      (∀ p u, exprMapGet em item = some (p, u) →
        ∃ p2 u2, exprMapGet em2 item = some (p2, u2) ∧
          (∀ v, LinExpr.coeff p2 v
            = LinExpr.coeff p v + (if v = i then entsProdSum ents item else 0)) ∧
          (∀ v, LinExpr.coeff u2 v
            = LinExpr.coeff u v + (if v = i then entsConsSum ents item else 0))) := by
  induction ents with
  | nil =>
    intro em em2 h item
    obtain rfl : em = em2 := by
      simpa [processEntries] using h
    refine ⟨fun h2 => h2, fun p u hpu => ⟨p, u, hpu, ?_, ?_⟩⟩ <;>
      intro v <;> simp [entsProdSum, entsConsSum]
  | cons ent rest ih =>
    intro em em2 h item
    rw [processEntries] at h
    cases happ : applyEntry em i ent with
    | error e => rw [happ] at h; exact absurd h (by simp)
    | ok em1 =>
      rw [happ] at h
      have hmod : em1 = exprMapModify em ent.1 (fun pu =>
          if ent.2.2 then (LinExpr.add_mul pu.1 ent.2.1 i, pu.2)
          else (pu.1, LinExpr.add_mul pu.2 ent.2.1 i)) := by
        rw [applyEntry] at happ
        cases hg : exprMapGet em ent.1 with
        | none => rw [hg] at happ; exact absurd happ (by simp)
        | some pu0 => rw [hg] at happ; exact (Except.ok.inj happ).symm
      have hih := ih em1 em2 h item
      constructor
      · intro hnone
        refine hih.1 ?_
        rw [hmod, exprMapGet_modify]
        by_cases hit : item = ent.1
        · rw [if_pos hit, hnone]; rfl
        · rw [if_neg hit]; exact hnone
      · intro p u hpu
        by_cases hit : item = ent.1
        · have hg : exprMapGet em ent.1 = some (p, u) := by rw [← hit]; exact hpu
          have hget1 : exprMapGet em1 item = some
              (if ent.2.2 = true then (LinExpr.add_mul p ent.2.1 i, u)
               else (p, LinExpr.add_mul u ent.2.1 i)) := by
            rw [hmod, exprMapGet_modify, if_pos hit, hpu]
            rfl
          cases hflag : ent.2.2 with
          | true =>
            rw [if_pos hflag] at hget1
            obtain ⟨p2, u2, hg2, hp2, hu2⟩ := hih.2 _ _ hget1
            refine ⟨p2, u2, hg2, ?_, ?_⟩ <;> intro v
            · rw [hp2 v, coeff_add_mul, entsProdSum_cons ent rest item,
                if_pos (⟨hit.symm, hflag⟩ : ent.1 = item ∧ ent.2.2 = true)]
              by_cases hv : v = i
              · rw [if_pos hv, if_pos hv, if_pos (by omega : i = v)]
                ring
              · rw [if_neg hv, if_neg hv, if_neg (by omega : ¬ i = v)]
                ring
            · rw [hu2 v, entsConsSum_cons ent rest item,
                if_neg (fun hcc : ent.1 = item ∧ ent.2.2 = false => by
                  rw [hflag] at hcc; exact absurd hcc.2 (by simp))]
              rw [zero_add]
          | false =>
            rw [if_neg (by rw [hflag]; simp)] at hget1
            obtain ⟨p2, u2, hg2, hp2, hu2⟩ := hih.2 _ _ hget1
            refine ⟨p2, u2, hg2, ?_, ?_⟩ <;> intro v
            · rw [hp2 v, entsProdSum_cons ent rest item,
                if_neg (fun hcc : ent.1 = item ∧ ent.2.2 = true => by
                  rw [hflag] at hcc; exact absurd hcc.2 (by simp))]
              rw [zero_add]
            · rw [hu2 v, coeff_add_mul, entsConsSum_cons ent rest item,
                if_pos (⟨hit.symm, hflag⟩ : ent.1 = item ∧ ent.2.2 = false)]
              by_cases hv : v = i
              · rw [if_pos hv, if_pos hv, if_pos (by omega : i = v)]
                ring
              · rw [if_neg hv, if_neg hv, if_neg (by omega : ¬ i = v)]
                ring
        · have hget1 : exprMapGet em1 item = some (p, u) := by
            rw [hmod, exprMapGet_modify, if_neg hit]
            exact hpu
          obtain ⟨p2, u2, hg2, hp2, hu2⟩ := hih.2 _ _ hget1
          refine ⟨p2, u2, hg2, ?_, ?_⟩ <;> intro v
          · rw [hp2 v, entsProdSum_cons ent rest item,
              if_neg (show ¬ (ent.1 = item ∧ ent.2.2 = true) from
                fun h2 => hit h2.1.symm), zero_add]
          · rw [hu2 v, entsConsSum_cons ent rest item,
              if_neg (show ¬ (ent.1 = item ∧ ent.2.2 = false) from
                fun h2 => hit h2.1.symm), zero_add]

theorem entsProdSum_recipeEntries (r : Recipe) (item : Item) :
    entsProdSum (recipeEntries r) item = recipeProdCoeff (.Built r) item := by
  have hing : ∀ ing : List (Item × ℕ),
      entsProdSum (ing.map fun e => (e.1, (e.2 : ℚ), false)) item = 0 := by
    intro ing
    induction ing with
    | nil => rfl
    | cons e rest ih => rw [List.map_cons, entsProdSum_cons]; simpa using ih
  have happ : ∀ (l1 l2 : List (Item × ℚ × Bool)),
      entsProdSum (l1 ++ l2) item = entsProdSum l1 item + entsProdSum l2 item := by
    intro l1 l2
    induction l1 with
    | nil => simp [entsProdSum]
    | cons e rest ih => rw [List.cons_append, entsProdSum_cons, entsProdSum_cons, ih]; ring
  have hprod : ∀ prods : List (Item × ℕ × ℚ),
      entsProdSum (prods.map fun e => (e.1, (e.2.1 : ℚ) * e.2.2, true)) item
        = ((prods.filter fun e => e.1 == item).map fun e => (e.2.1 : ℚ) * e.2.2).sum := by
    intro prods
    induction prods with
    | nil => rfl
    | cons e rest ih =>
      rw [List.map_cons, entsProdSum_cons]
      by_cases h : e.1 = item
      · simp [List.filter_cons, h, ih]
      · simp [List.filter_cons, h, ih]
  rw [recipeEntries, happ, hing, hprod]
  simp [recipeProdCoeff]

theorem entsConsSum_recipeEntries (r : Recipe) (item : Item) :
    entsConsSum (recipeEntries r) item = recipeConsCoeff (.Built r) item := by
  have hprod : ∀ prods : List (Item × ℕ × ℚ),
      entsConsSum (prods.map fun e => (e.1, (e.2.1 : ℚ) * e.2.2, true)) item = 0 := by
    intro prods
    induction prods with
    | nil => rfl
    | cons e rest ih => rw [List.map_cons, entsConsSum_cons]; simpa using ih
  have happ : ∀ (l1 l2 : List (Item × ℚ × Bool)),
      entsConsSum (l1 ++ l2) item = entsConsSum l1 item + entsConsSum l2 item := by
    intro l1 l2
    induction l1 with
    | nil => simp [entsConsSum]
    | cons e rest ih => rw [List.cons_append, entsConsSum_cons, entsConsSum_cons, ih]; ring
  have hing : ∀ ing : List (Item × ℕ),
      entsConsSum (ing.map fun e => (e.1, (e.2 : ℚ), false)) item
        = ((ing.filter fun e => e.1 == item).map fun e => ((e.2 : ℕ) : ℚ)).sum := by
    intro ing
    induction ing with
    | nil => rfl
    | cons e rest ih =>
      rw [List.map_cons, entsConsSum_cons]
      by_cases h : e.1 = item
      · simp [List.filter_cons, h, ih]
      · simp [List.filter_cons, h, ih]
  rw [recipeEntries, happ, hing, hprod]
  simp [recipeConsCoeff]

theorem buildExprsGo_spec (rs : List EditableContent) :
    ∀ (k : ℕ) (em em2 : ExprMap), buildExprsGo k rs em = .ok em2 →
    ∀ item,
      (exprMapGet em item = none → exprMapGet em2 item = none) ∧
      (∀ p u, exprMapGet em item = some (p, u) →
        ∃ p2 u2, exprMapGet em2 item = some (p2, u2) ∧
          (∀ v, LinExpr.coeff p2 v = LinExpr.coeff p v +
            (if k ≤ v then collectionProdCoeff rs (v - k) item else 0)) ∧
          (∀ v, LinExpr.coeff u2 v = LinExpr.coeff u v +
            (if k ≤ v then collectionConsCoeff rs (v - k) item else 0))) := by
  induction rs with
  | nil =>
    intro k em em2 h item
    obtain rfl : em = em2 := by
      simpa [buildExprsGo] using h
    refine ⟨fun h2 => h2, fun p u hpu => ⟨p, u, hpu, ?_, ?_⟩⟩ <;>
      intro v <;> simp [collectionProdCoeff, collectionConsCoeff]
  | cons c rest ih =>
    intro k em em2 h item
    cases c with
    | Builder b => exact absurd h (by simp [buildExprsGo])
    | Built r =>
      rw [buildExprsGo] at h
      cases hproc : processEntries k (recipeEntries r) em with
      | error e => rw [hproc] at h; exact absurd h (by simp)
      | ok em1 =>
        rw [hproc] at h
        have hps := processEntries_spec (recipeEntries r) k em em1 hproc item
        have hih := ih (k + 1) em1 em2 h item
        constructor
        · intro hnone
          exact hih.1 (hps.1 hnone)
        · intro p u hpu
          obtain ⟨p1, u1, hg1, hp1, hu1⟩ := hps.2 p u hpu
          obtain ⟨p2, u2, hg2, hp2, hu2⟩ := hih.2 p1 u1 hg1
          refine ⟨p2, u2, hg2, ?_, ?_⟩ <;> intro v
          · rw [hp2 v, hp1 v]
            rcases Nat.lt_trichotomy v k with hv | hv | hv
            · rw [if_neg (by omega), if_neg (by omega), if_neg (by omega)]
              ring
            · subst hv
              rw [if_pos rfl, if_neg (by omega), if_pos (by omega)]
              have hz : v - v = 0 := by omega
              rw [hz]
              have hc : collectionProdCoeff (EditableContent.Built r :: rest) 0 item
                  = recipeProdCoeff (.Built r) item := rfl
              rw [hc, entsProdSum_recipeEntries]
              ring
            · rw [if_neg (by omega), if_pos (by omega), if_pos (by omega)]
              have hz : v - k = (v - (k + 1)) + 1 := by omega
              rw [hz]
              have hc : collectionProdCoeff (EditableContent.Built r :: rest)
                  ((v - (k + 1)) + 1) item
                  = collectionProdCoeff rest (v - (k + 1)) item := rfl
              rw [hc]
              ring
          · rw [hu2 v, hu1 v]
            rcases Nat.lt_trichotomy v k with hv | hv | hv
            · rw [if_neg (by omega), if_neg (by omega), if_neg (by omega)]
              ring
            · subst hv
              rw [if_pos rfl, if_neg (by omega), if_pos (by omega)]
              have hz : v - v = 0 := by omega
              rw [hz]
              have hc : collectionConsCoeff (EditableContent.Built r :: rest) 0 item
                  = recipeConsCoeff (.Built r) item := rfl
              rw [hc, entsConsSum_recipeEntries]
              ring
            · rw [if_neg (by omega), if_pos (by omega), if_pos (by omega)]
              have hz : v - k = (v - (k + 1)) + 1 := by omega
              rw [hz]
              have hc : collectionConsCoeff (EditableContent.Built r :: rest)
                  ((v - (k + 1)) + 1) item
                  = collectionConsCoeff rest (v - (k + 1)) item := rfl
              rw [hc]
              ring

/-- C5: the model builder initializes every ledger item's expression pair to the
empty `(0, 0)` pair, and on success the consumed expression of each ledger item
assigns variable `i` exactly the summed quantities of recipe `i`'s matching
ingredient entries, while the produced expression assigns exactly the summed
`quantity * probability` of recipe `i`'s matching product entries — a product's
expected output coefficient is quantity times probability, and no other
contributions arise (indices beyond the collection carry coefficient 0). -/
theorem model_builder_expressions (recipes : List EditableContent) (ledger : Ledger)
    (em : ExprMap) (hb : buildExpressions recipes ledger = .ok em) :
    (∀ item, exprMapGet (initExpressions ledger) item
        = (ledgerGet ledger item).map fun _ => (([], []) : LinExpr × LinExpr)) ∧
    ∀ item p u, exprMapGet em item = some (p, u) → ∀ v,
      LinExpr.coeff p v = collectionProdCoeff recipes v item ∧
      LinExpr.coeff u v = collectionConsCoeff recipes v item := by
  refine ⟨exprMapGet_initExpressions ledger, ?_⟩
  intro item p u hget v
  have hspec := buildExprsGo_spec recipes 0 (initExpressions ledger) em hb item
  cases hg : ledgerGet ledger item with
  | none =>
    have hinit : exprMapGet (initExpressions ledger) item = none := by
      rw [exprMapGet_initExpressions, hg]; rfl
    have hnone := hspec.1 hinit
    rw [hget] at hnone
    exact absurd hnone (by simp)
  | some e =>
    have hinit : exprMapGet (initExpressions ledger) item = some ([], []) := by
      rw [exprMapGet_initExpressions, hg]; rfl
    obtain ⟨p2, u2, hg2, hp2, hu2⟩ := hspec.2 [] [] hinit
    rw [hget] at hg2
    obtain ⟨rfl, rfl⟩ : p = p2 ∧ u = u2 := by
      have := Option.some.inj hg2
      exact ⟨congrArg Prod.fst this, congrArg Prod.snd this⟩
    constructor
    · have := hp2 v
      simpa [LinExpr.coeff] using this
    · have := hu2 v
      simpa [LinExpr.coeff] using this

/-- Witness for C5 on the concrete one-recipe state: the produced coefficient of
variable 0 for `"wood"` is `10 * 1` (quantity times probability) and the
consumed coefficient is 0. -/
theorem model_builder_expressions_witness :
    LinExpr.coeff [(((10 : ℕ) : ℚ) * 1, 0)] 0 = collectionProdCoeff computeDemo.recipes 0 "wood" ∧
    LinExpr.coeff [] 0 = collectionConsCoeff computeDemo.recipes 0 "wood" :=
  (model_builder_expressions computeDemo.recipes computeDemo.known_items demoEM
    (by rfl)).2 "wood" _ _ (by rfl) 0

end CraftTree
